import Mathlib

/-!
# Verification of the hogwarts-explorer core subsystems

This development embeds the algorithmic core of the repository in Lean and
proves the specified properties about it:

* `MazeGen` embeds `src/services/mazeGenerator.ts` (`generateMaze`): randomized
  iterative depth-first carving over an odd-cell lattice, with explicit stack.
* `Collision` embeds the `isWall` closure and the axis-separated sliding
  resolution from the walk-mode branch of `src/components/GameScene.tsx`.
* `Terrain` embeds `getTerrainHeight` from `src/components/GameScene.tsx`:
  a sinusoidal base field followed by ten ordered region overrides.

Conventions: the JS nested array `grid[row][col]` (written `grid[y][x]` in the
source) is embedded as a total function `Pos → Nat` applied at `(x, y)`; cells
hold `1` (wall) or `0` (open) exactly as in the source.  JS numbers are
embedded as `Int` where the source only ever holds integers (grid indices,
dimensions), as `ℚ` for the collision queries (exact rational arithmetic with
`Int.floor`), and as `ℝ` for the terrain field (which uses `sin`, `cos`,
`sqrt`).  The ambient random source used by the in-place shuffle
`directions.sort(() => Math.random() - 0.5)` is modelled by a stream
`rand : Nat → List Pos` giving, for each iteration of the carving loop, the
order in which the four directions are scanned; a JS `sort` always returns
some permutation of the array, which is the hypothesis `(rand i).Perm
directions` carried by the theorems.
-/

namespace HogwartsExplorer

namespace MazeGen

/-- Grid coordinates, source `Coordinate {x, y}`; `p.1` is `x` (column),
`p.2` is `y` (row). -/
abbrev Pos : Type := Int × Int

/-- The candidate neighbour offsets, source lines
`{x:0,y:-2}, {x:0,y:2}, {x:-2,y:0}, {x:2,y:0}` (up, down, left, right). -/
def directions : List Pos := [(0, -2), (0, 2), (-2, 0), (2, 0)]

/-- The mutable state of the carving loop: the grid of cells (1 = wall,
0 = open), the visited flags, and the explicit stack.  The head of the list is
the top of the stack (`stack[stack.length - 1]` in the source). -/
structure GenState where
  grid : Pos → Nat
  visited : Pos → Bool
  stack : List Pos

/-- Source: `const start: Coordinate = { x: 1, y: 1 }`. -/
def startPos : Pos := (1, 1)

/-- The state right before the loop: all cells walls except the start cell,
which is open, visited and on the stack (source lines 8-16). -/
def initState : GenState where
  grid := fun q => if q = startPos then 0 else 1
  visited := fun q => if q = startPos then true else false
  stack := [startPos]

/-- The bounds test of source line 36:
`nx > 0 && nx < w - 1 && ny > 0 && ny < h - 1`. -/
def inInterior (w h : Int) (p : Pos) : Bool :=
  decide (0 < p.1) && decide (p.1 < w - 1) && decide (0 < p.2) && decide (p.2 < h - 1)

/-- Open a cell: source `grid[y][x] = 0`. -/
def carve (g : Pos → Nat) (p : Pos) : Pos → Nat :=
  fun q => if q = p then 0 else g q

/-- Mark a cell visited: source `visited[ny][nx] = true`. -/
def setVisited (v : Pos → Bool) (p : Pos) : Pos → Bool :=
  fun q => if q = p then true else v q

/-- The `for (const dir of shuffledDirs)` scan of source lines 32-44: the
first direction whose target is strictly inside the border and unvisited, if
any. -/
def pickDir (w h : Int) (v : Pos → Bool) (c : Pos) : List Pos → Option Pos
  | [] => none
  | d :: ds =>
      if inInterior w h (c.1 + d.1, c.2 + d.2) && !(v (c.1 + d.1, c.2 + d.2)) then some d
      else pickDir w h v c ds

/-- One iteration of the `while (stack.length > 0)` loop body (source lines
25-48), given the direction order `dirs` produced by this iteration's
shuffle: if some candidate is found, carve the destination and the wall cell
between (`dir/2` offset), mark it visited and push it; otherwise pop. -/
def stepLoop (w h : Int) (dirs : List Pos) (s : GenState) : GenState :=
  match s.stack with
  | [] => s
  | current :: rest =>
      match pickDir w h s.visited current dirs with
      | some d =>
          { grid := carve (carve s.grid (current.1 + d.1, current.2 + d.2))
              (current.1 + d.1 / 2, current.2 + d.2 / 2)
            visited := setVisited s.visited (current.1 + d.1, current.2 + d.2)
            stack := (current.1 + d.1, current.2 + d.2) :: current :: rest }
      | none => { s with stack := rest }

/-- The carving loop itself.  The source `while` loop carries no fuel; here it
is run for `fuel` iterations, and `runLoop_stack_empty` below proves that the
fuel budget `genFuel` always suffices to reach the loop's exit condition
(empty stack), after which `runLoop` leaves the state unchanged, so this is a
faithful rendering of the (always terminating) source loop.  `i` counts
iterations and indexes the shuffle stream. -/
def runLoop (w h : Int) (rand : Nat → List Pos) : Nat → Nat → GenState → GenState
  | 0, _, s => s
  | fuel + 1, i, s =>
      match s.stack with
      | [] => s
      | _ :: _ => runLoop w h rand fuel (i + 1) (stepLoop w h (rand i) s)

/-- Source lines 5-6: `width % 2 === 0 ? width + 1 : width` (JS `%` and
`Int.emod` agree on evenness). -/
def oddify (n : Int) : Int := if n % 2 = 0 then n + 1 else n

/-- Fuel sufficient for the loop to empty its stack (twice the number of grid
cells plus the initial stack): see `runLoop_stack_empty`. -/
def genFuel (w h : Int) : Nat := 2 * (w.toNat * h.toNat) + 2

/-- The result record of `generateMaze` (source lines 56-62 and the `MazeGrid`
type of `src/types.ts`).  The source field `end` is a Lean keyword and is
embedded as `endCell`. -/
structure MazeGrid where
  width : Int
  height : Int
  grid : Pos → Nat
  start : Pos
  endCell : Pos

/-- Source `generateMaze` (lines 3-63): coerce the dimensions to odd, run the
carving loop from `(1,1)`, then force the end cell `(w-2, h-2)` open. -/
def generateMaze (rand : Nat → List Pos) (width height : Int) : MazeGrid :=
  let w := oddify width
  let h := oddify height
  let final := runLoop w h rand (genFuel w h) 0 initState
  { width := w
    height := h
    grid := carve final.grid (w - 2, h - 2)
    start := startPos
    endCell := (w - 2, h - 2) }

/-! ### Basic lemmas about the state updates -/

@[simp]
lemma carve_self (g : Pos → Nat) (p : Pos) : carve g p p = 0 := by
  simp [carve]

lemma carve_ne (g : Pos → Nat) {p q : Pos} (h : q ≠ p) : carve g p q = g q := by
  simp [carve, h]

lemma carve_eq_zero_iff {g : Pos → Nat} {p q : Pos} :
    carve g p q = 0 ↔ q = p ∨ g q = 0 := by
  unfold carve
  split <;> simp_all

lemma carve_mono {g : Pos → Nat} {p q : Pos} (h : g q = 0) : carve g p q = 0 := by
  unfold carve
  split <;> simp_all

lemma setVisited_eq_true_iff {v : Pos → Bool} {p q : Pos} :
    setVisited v p q = true ↔ q = p ∨ v q = true := by
  unfold setVisited
  split <;> simp_all

lemma setVisited_mono {v : Pos → Bool} {p q : Pos} (h : v q = true) :
    setVisited v p q = true := setVisited_eq_true_iff.2 (Or.inr h)

lemma inInterior_iff {w h : Int} {p : Pos} :
    inInterior w h p = true ↔ 0 < p.1 ∧ p.1 < w - 1 ∧ 0 < p.2 ∧ p.2 < h - 1 := by
  simp [inInterior, and_assoc]

lemma pickDir_eq_some {w h : Int} {v : Pos → Bool} {c : Pos} {l : List Pos} {d : Pos}
    (hp : pickDir w h v c l = some d) :
    d ∈ l ∧ inInterior w h (c.1 + d.1, c.2 + d.2) = true ∧
      v (c.1 + d.1, c.2 + d.2) = false := by
  induction l with
  | nil => simp [pickDir] at hp
  | cons e es ih =>
      rw [pickDir] at hp
      split at hp
      · rename_i hcond
        obtain rfl : e = d := by simpa using hp
        simp only [Bool.and_eq_true, Bool.not_eq_true'] at hcond
        exact ⟨List.mem_cons_self _ _, hcond.1, hcond.2⟩
      · obtain ⟨h1, h2, h3⟩ := ih hp
        exact ⟨List.mem_cons_of_mem _ h1, h2, h3⟩

lemma pickDir_eq_none {w h : Int} {v : Pos → Bool} {c : Pos} {l : List Pos}
    (hp : pickDir w h v c l = none) :
    ∀ d ∈ l, inInterior w h (c.1 + d.1, c.2 + d.2) = true →
      v (c.1 + d.1, c.2 + d.2) = true := by
  induction l with
  | nil => simp
  | cons e es ih =>
      rw [pickDir] at hp
      split at hp
      · exact absurd hp (by simp)
      · rename_i hcond
        intro d hd hint
        rcases List.mem_cons.1 hd with rfl | hd'
        · simp only [Bool.and_eq_true, Bool.not_eq_true', not_and] at hcond
          have := hcond hint
          simpa using this
        · exact ih hp d hd' hint

/-! ### Termination of the carving loop -/

/-- The cells of the full grid, as a finite set. -/
def box (w h : Int) : Finset Pos := Finset.Ico 0 w ×ˢ Finset.Ico 0 h

lemma mem_box {w h : Int} {p : Pos} :
    p ∈ box w h ↔ (0 ≤ p.1 ∧ p.1 < w) ∧ (0 ≤ p.2 ∧ p.2 < h) := by
  simp [box, Finset.mem_product]

lemma interior_mem_box {w h : Int} {p : Pos} (hp : inInterior w h p = true) :
    p ∈ box w h := by
  rw [inInterior_iff] at hp
  rw [mem_box]
  omega

lemma card_box {w h : Int} : (box w h).card = w.toNat * h.toNat := by
  simp [box, Int.card_Ico]

/-- Number of cells not yet visited. -/
def unvisitedCount (w h : Int) (s : GenState) : Nat :=
  ((box w h).filter (fun p => s.visited p = false)).card

/-- Decreasing measure for the carving loop. -/
def loopMeasure (w h : Int) (s : GenState) : Nat :=
  2 * unvisitedCount w h s + s.stack.length

lemma loopMeasure_step {w h : Int} {dirs : List Pos} {s : GenState}
    (hs : s.stack ≠ []) :
    loopMeasure w h (stepLoop w h dirs s) < loopMeasure w h s := by
  obtain ⟨cur, rest, hstk⟩ : ∃ c r, s.stack = c :: r := by
    cases h : s.stack with
    | nil => exact absurd h hs
    | cons c r => exact ⟨c, r, rfl⟩
  unfold stepLoop
  rw [hstk]
  cases hp : pickDir w h s.visited cur dirs with
  | none =>
      simp only [hp, loopMeasure, unvisitedCount, hstk, List.length_cons]
      omega
  | some d =>
      obtain ⟨_, hint, hunvis⟩ := pickDir_eq_some hp
      have hmem : (cur.1 + d.1, cur.2 + d.2) ∈
          (box w h).filter (fun p => s.visited p = false) :=
        Finset.mem_filter.2 ⟨interior_mem_box hint, hunvis⟩
      have hcard : 1 ≤ ((box w h).filter (fun p => s.visited p = false)).card :=
        Finset.card_pos.2 ⟨_, hmem⟩
      have herase : (box w h).filter
            (fun p => setVisited s.visited (cur.1 + d.1, cur.2 + d.2) p = false)
          = ((box w h).filter (fun p => s.visited p = false)).erase
              (cur.1 + d.1, cur.2 + d.2) := by
        ext q
        simp only [Finset.mem_filter, Finset.mem_erase, setVisited]
        constructor
        · intro ⟨hq1, hq2⟩
          split at hq2
          · exact absurd hq2 (by simp)
          · rename_i hne
            exact ⟨hne, hq1, hq2⟩
        · intro ⟨hne, hq1, hq2⟩
          refine ⟨hq1, ?_⟩
          split
          · exact absurd (by assumption) hne
          · exact hq2
      simp only [hp, loopMeasure, unvisitedCount, hstk, herase,
        Finset.card_erase_of_mem hmem, List.length_cons]
      omega

lemma runLoop_of_stack_empty {w h : Int} {rand : Nat → List Pos} {s : GenState}
    (hs : s.stack = []) : ∀ fuel i, runLoop w h rand fuel i s = s := by
  intro fuel i
  cases fuel with
  | zero => rfl
  | succ f => rw [runLoop, hs]

lemma runLoop_succ_cons {w h : Int} {rand : Nat → List Pos} {fuel i : Nat}
    {s : GenState} {c : Pos} {r : List Pos} (hs : s.stack = c :: r) :
    runLoop w h rand (fuel + 1) i s
      = runLoop w h rand fuel (i + 1) (stepLoop w h (rand i) s) := by
  rw [runLoop, hs]

lemma runLoop_stack_empty {w h : Int} {rand : Nat → List Pos} :
    ∀ fuel i (s : GenState), loopMeasure w h s ≤ fuel →
      (runLoop w h rand fuel i s).stack = [] := by
  intro fuel
  induction fuel with
  | zero =>
      intro i s hm
      have : s.stack.length = 0 := by
        have := hm
        unfold loopMeasure at this
        omega
      simpa [runLoop] using List.length_eq_zero.1 this
  | succ f ih =>
      intro i s hm
      cases hstk : s.stack with
      | nil =>
          rw [runLoop_of_stack_empty hstk]
          exact hstk
      | cons c r =>
          rw [runLoop_succ_cons hstk]
          exact ih (i + 1) _ (by
            have hlt : loopMeasure w h (stepLoop w h (rand i) s) < loopMeasure w h s :=
              loopMeasure_step (by rw [hstk]; simp)
            omega)

lemma loopMeasure_init {w h : Int} : loopMeasure w h initState ≤ genFuel w h := by
  have hcard : unvisitedCount w h initState ≤ w.toNat * h.toNat := by
    calc unvisitedCount w h initState ≤ (box w h).card := Finset.card_filter_le _ _
    _ = w.toNat * h.toNat := card_box
  have hlen : initState.stack.length = 1 := rfl
  unfold loopMeasure genFuel
  omega

/-- The state after the carving loop has run to completion. -/
def finalState (rand : Nat → List Pos) (w h : Int) : GenState :=
  runLoop w h rand (genFuel w h) 0 initState

lemma finalState_stack_empty (rand : Nat → List Pos) (w h : Int) :
    (finalState rand w h).stack = [] :=
  runLoop_stack_empty _ _ _ loopMeasure_init

lemma runLoop_fuel_irrelevant {w h : Int} {rand : Nat → List Pos} :
    ∀ F f i (s : GenState), F ≤ f → (runLoop w h rand F i s).stack = [] →
      runLoop w h rand f i s = runLoop w h rand F i s := by
  intro F
  induction F with
  | zero =>
      intro f i s _ hstk
      simp only [runLoop] at hstk ⊢
      exact runLoop_of_stack_empty hstk f i
  | succ F ih =>
      intro f i s hle hstk
      cases hs : s.stack with
      | nil =>
          rw [runLoop_of_stack_empty hs, runLoop_of_stack_empty hs]
      | cons c r =>
          obtain ⟨f', rfl⟩ : ∃ f', f = f' + 1 := by
            cases f with
            | zero => omega
            | succ f' => exact ⟨f', rfl⟩
          rw [runLoop_succ_cons hs] at hstk ⊢
          rw [runLoop_succ_cons hs]
          exact ih f' (i + 1) _ (by omega) hstk

/-! ### Cells, adjacency and reachability over open cells -/

/-- A cell whose two coordinates are odd: the lattice nodes of the carving. -/
def oddPair (p : Pos) : Prop := p.1 % 2 = 1 ∧ p.2 % 2 = 1

instance (p : Pos) : Decidable (oddPair p) := by unfold oddPair; infer_instance

/-- 4-connectedness of grid cells. -/
def adjacent (p q : Pos) : Prop :=
  (q.1 - p.1).natAbs + (q.2 - p.2).natAbs = 1

instance (p q : Pos) : Decidable (adjacent p q) := by unfold adjacent; infer_instance

lemma adjacent_symm {p q : Pos} (h : adjacent p q) : adjacent q p := by
  unfold adjacent at h ⊢
  omega

lemma adjacent_irrefl (p : Pos) : ¬ adjacent p p := by
  unfold adjacent
  omega

lemma adjacent_cases {p q : Pos} (h : adjacent p q) :
    (q.1 = p.1 + 1 ∧ q.2 = p.2) ∨ (q.1 = p.1 - 1 ∧ q.2 = p.2) ∨
    (q.1 = p.1 ∧ q.2 = p.2 + 1) ∨ (q.1 = p.1 ∧ q.2 = p.2 - 1) := by
  unfold adjacent at h
  omega

/-- A step between two adjacent open cells of a grid. -/
def openAdj (g : Pos → Nat) (p q : Pos) : Prop :=
  g p = 0 ∧ g q = 0 ∧ adjacent p q

/-- Reachability: `q` can be reached from `p` by a 4-connected path of open cells. -/
def Reaches (g : Pos → Nat) (p q : Pos) : Prop :=
  Relation.ReflTransGen (openAdj g) p q

lemma Reaches.mono {g g' : Pos → Nat} (hmono : ∀ p, g p = 0 → g' p = 0)
    {a b : Pos} (h : Reaches g a b) : Reaches g' a b := by
  induction h with
  | refl => exact Relation.ReflTransGen.refl
  | tail _ hstep ih =>
      exact ih.tail ⟨hmono _ hstep.1, hmono _ hstep.2.1, hstep.2.2⟩

lemma Reaches.open_of_open_start {g : Pos → Nat} {a b : Pos}
    (h : Reaches g a b) (ha : g a = 0) : g b = 0 := by
  induction h with
  | refl => exact ha
  | tail _ hstep _ => exact hstep.2.1

/-- The graph whose vertices are grid cells and whose edges join adjacent open
cells. -/
def openGraph (g : Pos → Nat) : SimpleGraph Pos where
  Adj p q := g p = 0 ∧ g q = 0 ∧ adjacent p q
  symm := by
    intro p q h
    exact ⟨h.2.1, h.1, adjacent_symm h.2.2⟩
  loopless := by
    intro p h
    exact adjacent_irrefl p h.2.2

lemma openGraph_adj {g : Pos → Nat} {p q : Pos} :
    (openGraph g).Adj p q ↔ g p = 0 ∧ g q = 0 ∧ adjacent p q := Iff.rfl

/-! ### Adding a pendant edge preserves acyclicity -/

/-- The graph `G` with an extra edge between `a` and `b` (when `a ≠ b`). -/
def addEdge {V : Type} (G : SimpleGraph V) (a b : V) : SimpleGraph V where
  Adj p q := G.Adj p q ∨ (a ≠ b ∧ ((p = a ∧ q = b) ∨ (p = b ∧ q = a)))
  symm := by
    intro p q hpq
    rcases hpq with hG | ⟨hab, ⟨h1, h2⟩ | ⟨h1, h2⟩⟩
    · exact Or.inl (G.symm hG)
    · exact Or.inr ⟨hab, Or.inr ⟨h2, h1⟩⟩
    · exact Or.inr ⟨hab, Or.inl ⟨h2, h1⟩⟩
  loopless := by
    intro p hp
    rcases hp with hG | ⟨hab, ⟨h1, h2⟩ | ⟨h1, h2⟩⟩
    · exact G.loopless p hG
    · exact hab (h1.symm.trans h2)
    · exact hab (h2.symm.trans h1)

lemma addEdge_adj {V : Type} {G : SimpleGraph V} {a b p q : V} :
    (addEdge G a b).Adj p q ↔
      G.Adj p q ∨ (a ≠ b ∧ ((p = a ∧ q = b) ∨ (p = b ∧ q = a))) := Iff.rfl

lemma addEdge_self {V : Type} (G : SimpleGraph V) (a : V) : addEdge G a a = G := by
  ext p q
  simp [addEdge_adj]

/-- In `addEdge G a b` with `b` isolated in `G`, the only neighbour of `b`
is `a`. -/
lemma addEdge_adj_of_isolated {V : Type} {G : SimpleGraph V} {a b x : V}
    (hb : ∀ y, ¬ G.Adj b y) (h : (addEdge G a b).Adj b x) : x = a := by
  rcases h with hG | ⟨hab, ⟨h1, h2⟩ | ⟨h1, h2⟩⟩
  · exact absurd hG (hb x)
  · exact absurd h1 hab.symm
  · exact h2

/-- No cycle based at a pendant vertex `b`. -/
lemma no_cycle_at_pendant {V : Type} [DecidableEq V] {G : SimpleGraph V} {a b : V}
    (hab : a ≠ b) (hb : ∀ y, ¬ G.Adj b y) (c : (addEdge G a b).Walk b b) :
    ¬ c.IsCycle := by
  intro hc
  cases c with
  | nil => exact hc.ne_nil rfl
  | @cons _ x _ h1 p =>
      have hx : x = a := addEdge_adj_of_isolated hb h1
      have hlen : 2 ≤ p.length := by
        have h3 := hc.three_le_length
        simp only [SimpleGraph.Walk.length_cons] at h3
        omega
      have hnd : p.support.Nodup := by
        have := hc.support_nodup
        simpa using this
      have hxb : x ≠ b := by rw [hx]; exact hab
      obtain ⟨z, h2, q, hq⟩ := SimpleGraph.Walk.exists_eq_cons_of_ne hxb.symm p.reverse
      have hz : z = a := addEdge_adj_of_isolated hb h2
      obtain ⟨t, ht⟩ : ∃ t, q.support = z :: t := ⟨q.support.tail, q.support_eq_cons⟩
      have hrevsup : p.reverse.support = b :: z :: t := by
        rw [hq, SimpleGraph.Walk.support_cons, ht]
      have hsup : p.support = t.reverse ++ [z, b] := by
        have h4 : p.support.reverse = b :: z :: t := by
          rw [← SimpleGraph.Walk.support_reverse, hrevsup]
        have h5 := congrArg List.reverse h4
        simpa using h5
      have hheadx : p.support = x :: p.support.tail := p.support_eq_cons
      cases t with
      | nil =>
          simp only [List.reverse_nil, List.nil_append] at hsup
          have hl2 : p.support.length = 2 := by rw [hsup]; rfl
          rw [SimpleGraph.Walk.length_support] at hl2
          omega
      | cons t0 ts =>
          obtain ⟨r0, r', hr⟩ : ∃ r0 r', (t0 :: ts).reverse = r0 :: r' := by
            cases hrev : (t0 :: ts).reverse with
            | nil => exact absurd hrev (by simp)
            | cons r0 r' => exact ⟨r0, r', rfl⟩
          rw [hr] at hsup
          have h6 : x :: p.support.tail = r0 :: (r' ++ [z, b]) := by
            rw [← hheadx, hsup]
            simp
          have hr0 : r0 = x := ((List.cons_eq_cons.mp h6).1).symm
          rw [hsup] at hnd
          simp only [List.cons_append, List.nodup_cons] at hnd
          refine hnd.1 ?_
          have hxz : x = z := hx.trans hz.symm
          rw [hr0, hxz]
          simp

/-- Adding an edge from `a` to an isolated vertex `b` preserves acyclicity. -/
lemma IsAcyclic.addEdge_pendant {V : Type} [DecidableEq V] {G : SimpleGraph V} {a b : V}
    (hG : G.IsAcyclic) (hb : ∀ y, ¬ G.Adj b y) : (addEdge G a b).IsAcyclic := by
  by_cases hab : a = b
  · subst hab
    rw [addEdge_self]
    exact hG
  · intro v c hc
    by_cases hbs : b ∈ c.support
    · exact no_cycle_at_pendant hab hb (c.rotate hbs) (hc.rotate hbs)
    · have hedges : ∀ e ∈ c.edges, e ∈ G.edgeSet := by
        intro e he
        induction e with
        | _ u1 u2 =>
            have hu1 : u1 ∈ c.support := SimpleGraph.Walk.fst_mem_support_of_mem_edges c he
            have hu2 : u2 ∈ c.support := SimpleGraph.Walk.snd_mem_support_of_mem_edges c he
            have hadj : (addEdge G a b).Adj u1 u2 := c.adj_of_mem_edges he
            rcases hadj with hGadj | ⟨_, ⟨_, h2⟩ | ⟨h1, _⟩⟩
            · exact hGadj
            · exact absurd (h2 ▸ hu2) hbs
            · exact absurd (h1 ▸ hu1) hbs
      exact hG (c.transfer G hedges) (hc.transfer hedges)

/-! ### The loop invariant -/

lemma directions_cases {d : Pos} (hd : d ∈ directions) :
    d = (0, -2) ∨ d = (0, 2) ∨ d = (-2, 0) ∨ d = (2, 0) := by
  simpa [directions] using hd

lemma initState_grid_eq_zero {p : Pos} : initState.grid p = 0 ↔ p = startPos := by
  simp only [initState]
  split <;> simp_all

lemma initState_visited_eq_true {p : Pos} :
    initState.visited p = true ↔ p = startPos := by
  simp only [initState]
  split <;> simp_all

/-- Everything that stays true of the loop state throughout the carving:
cell values, the closed border, cell parity, the visited/stack discipline,
reachability of every open cell from the start, the exhausted-neighbour
property of popped cells, the node/connection count, and acyclicity of the
open subgraph. -/
structure Inv (w h : Int) (s : GenState) : Prop where
  grid01 : ∀ p, s.grid p = 0 ∨ s.grid p = 1
  border : ∀ p, s.grid p = 0 → inInterior w h p = true
  parity : ∀ p, s.grid p = 0 → p.1 % 2 = 1 ∨ p.2 % 2 = 1
  stack_visited : ∀ p ∈ s.stack, s.visited p = true
  visited_open : ∀ p, s.visited p = true → s.grid p = 0
  visited_interior : ∀ p, s.visited p = true → inInterior w h p = true
  visited_odd : ∀ p, s.visited p = true → oddPair p
  odd_open_visited : ∀ p, s.grid p = 0 → oddPair p → s.visited p = true
  mixed_x : ∀ p, s.grid p = 0 → p.1 % 2 = 0 →
    s.grid (p.1 - 1, p.2) = 0 ∧ s.grid (p.1 + 1, p.2) = 0
  mixed_y : ∀ p, s.grid p = 0 → p.2 % 2 = 0 →
    s.grid (p.1, p.2 - 1) = 0 ∧ s.grid (p.1, p.2 + 1) = 0
  start_visited : s.visited startPos = true
  reach : ∀ p, s.grid p = 0 → Reaches s.grid startPos p
  done : ∀ p, s.visited p = true → p ∈ s.stack ∨
    ∀ d ∈ directions, inInterior w h (p.1 + d.1, p.2 + d.2) = true →
      s.visited (p.1 + d.1, p.2 + d.2) = true
  count : ((box w h).filter (fun p => s.grid p = 0 ∧ oddPair p)).card
    = ((box w h).filter (fun p => s.grid p = 0 ∧ ¬ oddPair p)).card + 1
  acyclic : (openGraph s.grid).IsAcyclic

lemma startPos_mem_box {w h : Int} (hw : 3 ≤ w) (hh : 3 ≤ h) :
    startPos ∈ box w h := by
  rw [mem_box]
  unfold startPos
  omega

lemma inv_init {w h : Int} (hw : 3 ≤ w) (hh : 3 ≤ h) : Inv w h initState := by
  have hbot : openGraph initState.grid = ⊥ := by
    ext p q
    simp only [openGraph_adj, SimpleGraph.bot_adj, iff_false, not_and]
    intro hp hq hadj
    rw [initState_grid_eq_zero] at hp hq
    subst hp
    subst hq
    exact adjacent_irrefl _ hadj
  have hodd : (box w h).filter (fun p => initState.grid p = 0 ∧ oddPair p)
      = {startPos} := by
    ext q
    simp only [Finset.mem_filter, Finset.mem_singleton, initState_grid_eq_zero]
    constructor
    · rintro ⟨_, rfl, _⟩
      rfl
    · rintro rfl
      exact ⟨startPos_mem_box hw hh, rfl, by decide⟩
  have hmix : (box w h).filter (fun p => initState.grid p = 0 ∧ ¬ oddPair p)
      = (∅ : Finset Pos) := by
    ext q
    simp only [Finset.mem_filter, Finset.not_mem_empty, iff_false, not_and]
    intro _ hq
    rw [initState_grid_eq_zero] at hq
    subst hq
    simp [startPos, oddPair]
  refine ⟨?_, ?_, ?_, ?_, ?_, ?_, ?_, ?_, ?_, ?_, ?_, ?_, ?_, ?_, ?_⟩
  · intro p
    rw [Classical.or_iff_not_imp_left, initState_grid_eq_zero]
    intro hp
    simp only [initState]
    split <;> simp_all
  · intro p hp
    rw [initState_grid_eq_zero] at hp
    subst hp
    rw [inInterior_iff]
    unfold startPos
    omega
  · intro p hp
    rw [initState_grid_eq_zero] at hp
    subst hp
    left
    rfl
  · intro p hp
    simp only [initState, List.mem_singleton] at hp
    subst hp
    rw [initState_visited_eq_true]
  · intro p hp
    rw [initState_visited_eq_true] at hp
    subst hp
    rw [initState_grid_eq_zero]
  · intro p hp
    rw [initState_visited_eq_true] at hp
    subst hp
    rw [inInterior_iff]
    unfold startPos
    omega
  · intro p hp
    rw [initState_visited_eq_true] at hp
    subst hp
    exact ⟨rfl, rfl⟩
  · intro p hp _
    rw [initState_grid_eq_zero] at hp
    subst hp
    rw [initState_visited_eq_true]
  · intro p hp hpar
    rw [initState_grid_eq_zero] at hp
    subst hp
    simp [startPos] at hpar
  · intro p hp hpar
    rw [initState_grid_eq_zero] at hp
    subst hp
    simp [startPos] at hpar
  · rw [initState_visited_eq_true]
  · intro p hp
    rw [initState_grid_eq_zero] at hp
    subst hp
    exact Relation.ReflTransGen.refl
  · intro p hp
    rw [initState_visited_eq_true] at hp
    subst hp
    left
    simp [initState]
  · rw [hodd, hmix]
    simp
  · rw [hbot]
    intro v c hc
    cases c with
    | nil => exact hc.ne_nil rfl
    | cons hadj _ => exact hadj.elim

/-- Carving a wall cell `m` adjacent to the open cell `a`, and a wall cell `n`
adjacent to `m`, when `m` and `n` have no other open neighbours, amounts to
hanging the pendant path `a - m - n` onto the open graph; acyclicity is
preserved. -/
lemma isAcyclic_carve2 {g : Pos → Nat} {a m n : Pos}
    (hacyc : (openGraph g).IsAcyclic)
    (ha : g a = 0) (hm : ¬ g m = 0) (hn : ¬ g n = 0)
    (ham : adjacent a m) (hmn : adjacent m n) (hane : a ≠ n)
    (hm_only : ∀ q, g q = 0 → adjacent m q → q = a)
    (hn_only : ∀ q, g q = 0 → ¬ adjacent n q) :
    (openGraph (carve (carve g n) m)).IsAcyclic := by
  have hamne : a ≠ m := fun hc => hm (hc ▸ ha)
  have hmnne : m ≠ n := by
    intro hc
    rw [hc] at hmn
    exact adjacent_irrefl n hmn
  have hGeq : openGraph (carve (carve g n) m)
      = addEdge (addEdge (openGraph g) a m) m n := by
    ext p q
    simp only [openGraph_adj, addEdge_adj, carve_eq_zero_iff]
    constructor
    · rintro ⟨(rfl | rfl | hp0), (rfl | rfl | hq0), hadj⟩
      · exact absurd hadj (adjacent_irrefl _)
      · exact Or.inr ⟨hmnne, Or.inl ⟨rfl, rfl⟩⟩
      · obtain rfl : q = a := hm_only q hq0 hadj
        exact Or.inl (Or.inr ⟨hamne, Or.inr ⟨rfl, rfl⟩⟩)
      · exact Or.inr ⟨hmnne, Or.inr ⟨rfl, rfl⟩⟩
      · exact absurd hadj (adjacent_irrefl _)
      · exact absurd hadj (hn_only q hq0)
      · obtain rfl : p = a := hm_only p hp0 (adjacent_symm hadj)
        exact Or.inl (Or.inr ⟨hamne, Or.inl ⟨rfl, rfl⟩⟩)
      · exact absurd (adjacent_symm hadj) (hn_only p hp0)
      · exact Or.inl (Or.inl ⟨hp0, hq0, hadj⟩)
    · rintro ((⟨hp0, hq0, hadj⟩ | ⟨_, ⟨rfl, rfl⟩ | ⟨rfl, rfl⟩⟩) |
        ⟨_, ⟨rfl, rfl⟩ | ⟨rfl, rfl⟩⟩)
      · exact ⟨Or.inr (Or.inr hp0), Or.inr (Or.inr hq0), hadj⟩
      · exact ⟨Or.inr (Or.inr ha), Or.inl rfl, ham⟩
      · exact ⟨Or.inl rfl, Or.inr (Or.inr ha), adjacent_symm ham⟩
      · exact ⟨Or.inl rfl, Or.inr (Or.inl rfl), hmn⟩
      · exact ⟨Or.inr (Or.inl rfl), Or.inl rfl, adjacent_symm hmn⟩
  rw [hGeq]
  have h1 : (addEdge (openGraph g) a m).IsAcyclic :=
    IsAcyclic.addEdge_pendant hacyc (fun y hy => hm hy.1)
  refine IsAcyclic.addEdge_pendant h1 ?_
  intro y hy
  rcases hy with hG | ⟨_, ⟨h1', _⟩ | ⟨h1', _⟩⟩
  · exact hn hG.1
  · exact hane h1'.symm
  · exact hmnne h1'.symm

lemma dir_div_facts {d : Pos} (hd : d ∈ directions) :
    (d.1 = 0 ∧ d.1 / 2 = 0 ∧ ((d.2 = -2 ∧ d.2 / 2 = -1) ∨ (d.2 = 2 ∧ d.2 / 2 = 1))) ∨
    (d.2 = 0 ∧ d.2 / 2 = 0 ∧ ((d.1 = -2 ∧ d.1 / 2 = -1) ∨ (d.1 = 2 ∧ d.1 / 2 = 1))) := by
  rcases directions_cases hd with rfl | rfl | rfl | rfl <;> decide

/-- A wall cell with two odd coordinates has no open neighbour: an open
neighbour would be a mixed-parity cell whose pair of odd-axis neighbours —
among them the wall cell itself — is open by the `mixed` invariants. -/
lemma no_open_neighbor_of_wall_odd {w h : Int} {s : GenState} (inv : Inv w h s)
    {n : Pos} (hn_odd : oddPair n) (hn_wall : ¬ s.grid n = 0) :
    ∀ q, s.grid q = 0 → ¬ adjacent n q := by
  intro q hq hadj
  apply hn_wall
  obtain ⟨ho1, ho2⟩ := hn_odd
  rcases adjacent_cases hadj with ⟨e1, e2⟩ | ⟨e1, e2⟩ | ⟨e1, e2⟩ | ⟨e1, e2⟩
  · have hqx : q.1 % 2 = 0 := by omega
    have hpair := (inv.mixed_x q hq hqx).1
    have heq : (q.1 - 1, q.2) = n := by
      rw [Prod.ext_iff]
      constructor <;> dsimp only <;> omega
    rwa [heq] at hpair
  · have hqx : q.1 % 2 = 0 := by omega
    have hpair := (inv.mixed_x q hq hqx).2
    have heq : (q.1 + 1, q.2) = n := by
      rw [Prod.ext_iff]
      constructor <;> dsimp only <;> omega
    rwa [heq] at hpair
  · have hqy : q.2 % 2 = 0 := by omega
    have hpair := (inv.mixed_y q hq hqy).1
    have heq : (q.1, q.2 - 1) = n := by
      rw [Prod.ext_iff]
      constructor <;> dsimp only <;> omega
    rwa [heq] at hpair
  · have hqy : q.2 % 2 = 0 := by omega
    have hpair := (inv.mixed_y q hq hqy).2
    have heq : (q.1, q.2 + 1) = n := by
      rw [Prod.ext_iff]
      constructor <;> dsimp only <;> omega
    rwa [heq] at hpair

/-- Preservation of the invariant by a carving step: the top of the stack is
`cur`, the chosen destination is `n` and the wall cell in between is `m`. -/
lemma inv_found_aux {w h : Int} {s : GenState} {cur : Pos} {rest : List Pos}
    (inv : Inv w h s) (hstk : s.stack = cur :: rest) (n m : Pos)
    (hn_int : inInterior w h n = true)
    (hm_int : inInterior w h m = true)
    (hn_unvis : s.visited n = false)
    (hn_odd : oddPair n)
    (hm_notodd : ¬ oddPair m)
    (hm_par : m.1 % 2 = 1 ∨ m.2 % 2 = 1)
    (hadj_cm : adjacent cur m)
    (hadj_mn : adjacent m n)
    (hmx : m.1 % 2 = 0 →
      ((m.1 - 1, m.2) = cur ∧ (m.1 + 1, m.2) = n) ∨
      ((m.1 - 1, m.2) = n ∧ (m.1 + 1, m.2) = cur))
    (hmy : m.2 % 2 = 0 →
      ((m.1, m.2 - 1) = cur ∧ (m.1, m.2 + 1) = n) ∨
      ((m.1, m.2 - 1) = n ∧ (m.1, m.2 + 1) = cur)) :
    Inv w h ⟨carve (carve s.grid n) m, setVisited s.visited n,
      n :: cur :: rest⟩ := by
  have hcur_stack : cur ∈ s.stack := by
    rw [hstk]
    exact List.mem_cons_self _ _
  have hcur_vis : s.visited cur = true := inv.stack_visited cur hcur_stack
  have hcur_open : s.grid cur = 0 := inv.visited_open cur hcur_vis
  have hn_wall : ¬ s.grid n = 0 := by
    intro h0
    have hv := inv.odd_open_visited n h0 hn_odd
    rw [hn_unvis] at hv
    exact Bool.false_ne_true hv
  have hn_only : ∀ q, s.grid q = 0 → ¬ adjacent n q :=
    no_open_neighbor_of_wall_odd inv hn_odd hn_wall
  have hm_wall : ¬ s.grid m = 0 := by
    intro h0
    by_cases hm2 : m.2 % 2 = 0
    · have hpair := inv.mixed_y m h0 hm2
      rcases hmy hm2 with ⟨_, hn'⟩ | ⟨hn', _⟩
      · exact hn_wall (hn' ▸ hpair.2)
      · exact hn_wall (hn' ▸ hpair.1)
    · have hm1 : m.1 % 2 = 0 := by
        by_contra hc
        apply hm_notodd
        constructor <;> omega
      have hpair := inv.mixed_x m h0 hm1
      rcases hmx hm1 with ⟨_, hn'⟩ | ⟨hn', _⟩
      · exact hn_wall (hn' ▸ hpair.2)
      · exact hn_wall (hn' ▸ hpair.1)
  have hne_cn : cur ≠ n := fun hc => hn_wall (hc ▸ hcur_open)
  have hm_only : ∀ q, s.grid q = 0 → adjacent m q → q = cur := by
    intro q hq hadj
    have hqpar := inv.parity q hq
    have hmix_of_even : m.1 % 2 = 0 ∨ m.2 % 2 = 0 := by
      rcases hm_par with hp | hp
      · right
        by_contra hc
        exact hm_notodd ⟨hp, by omega⟩
      · left
        by_contra hc
        exact hm_notodd ⟨by omega, hp⟩
    rcases adjacent_cases hadj with ⟨e1, e2⟩ | ⟨e1, e2⟩ | ⟨e1, e2⟩ | ⟨e1, e2⟩
    · -- q = (m.1 + 1, m.2)
      rcases hmix_of_even with hm1 | hm2
      · have hqeq : q = (m.1 + 1, m.2) := by
          rw [Prod.ext_iff]
          exact ⟨e1, e2⟩
        rcases hmx hm1 with ⟨_, hn'⟩ | ⟨_, hc⟩
        · exact absurd (by rw [hqeq, hn'] at hq; exact hq) hn_wall
        · exact hqeq.trans hc
      · exfalso
        omega
    · -- q = (m.1 - 1, m.2)
      rcases hmix_of_even with hm1 | hm2
      · have hqeq : q = (m.1 - 1, m.2) := by
          rw [Prod.ext_iff]
          exact ⟨e1, e2⟩
        rcases hmx hm1 with ⟨hc, _⟩ | ⟨hn', _⟩
        · exact hqeq.trans hc
        · exact absurd (by rw [hqeq, hn'] at hq; exact hq) hn_wall
      · exfalso
        omega
    · -- q = (m.1, m.2 + 1)
      rcases hmix_of_even with hm1 | hm2
      · exfalso
        omega
      · have hqeq : q = (m.1, m.2 + 1) := by
          rw [Prod.ext_iff]
          exact ⟨e1, e2⟩
        rcases hmy hm2 with ⟨_, hn'⟩ | ⟨_, hc⟩
        · exact absurd (by rw [hqeq, hn'] at hq; exact hq) hn_wall
        · exact hqeq.trans hc
    · -- q = (m.1, m.2 - 1)
      rcases hmix_of_even with hm1 | hm2
      · exfalso
        omega
      · have hqeq : q = (m.1, m.2 - 1) := by
          rw [Prod.ext_iff]
          exact ⟨e1, e2⟩
        rcases hmy hm2 with ⟨hc, _⟩ | ⟨hn', _⟩
        · exact hqeq.trans hc
        · exact absurd (by rw [hqeq, hn'] at hq; exact hq) hn_wall
  have hg' : ∀ q, carve (carve s.grid n) m q = 0 ↔ q = m ∨ q = n ∨ s.grid q = 0 := by
    intro q
    rw [carve_eq_zero_iff, carve_eq_zero_iff]
  have hmono : ∀ q, s.grid q = 0 → carve (carve s.grid n) m q = 0 :=
    fun q hq => (hg' q).2 (Or.inr (Or.inr hq))
  have hopen_cur' : carve (carve s.grid n) m cur = 0 := hmono cur hcur_open
  have hopen_m' : carve (carve s.grid n) m m = 0 := (hg' m).2 (Or.inl rfl)
  have hopen_n' : carve (carve s.grid n) m n = 0 := (hg' n).2 (Or.inr (Or.inl rfl))
  have hreach_cur : Reaches (carve (carve s.grid n) m) startPos cur :=
    (inv.reach cur hcur_open).mono hmono
  have hreach_m : Reaches (carve (carve s.grid n) m) startPos m :=
    hreach_cur.tail ⟨hopen_cur', hopen_m', hadj_cm⟩
  have hreach_n : Reaches (carve (carve s.grid n) m) startPos n :=
    hreach_m.tail ⟨hopen_m', hopen_n', hadj_mn⟩
  refine ⟨?_, ?_, ?_, ?_, ?_, ?_, ?_, ?_, ?_, ?_, ?_, ?_, ?_, ?_, ?_⟩
  · -- grid01
    intro p
    rcases inv.grid01 p with h0 | h1
    · exact Or.inl (hmono p h0)
    · by_cases hpm : p = m
      · exact Or.inl ((hg' p).2 (Or.inl hpm))
      · by_cases hpn : p = n
        · exact Or.inl ((hg' p).2 (Or.inr (Or.inl hpn)))
        · right
          show carve (carve s.grid n) m p = 1
          rw [carve_ne _ hpm, carve_ne _ hpn]
          exact h1
  · -- border
    intro p hp
    rcases (hg' p).1 hp with rfl | rfl | hp'
    · exact hm_int
    · exact hn_int
    · exact inv.border p hp'
  · -- parity
    intro p hp
    rcases (hg' p).1 hp with rfl | rfl | hp'
    · exact hm_par
    · exact Or.inl hn_odd.1
    · exact inv.parity p hp'
  · -- stack_visited
    intro p hp
    rcases List.mem_cons.1 hp with rfl | hp'
    · exact setVisited_eq_true_iff.2 (Or.inl rfl)
    · refine setVisited_mono (inv.stack_visited p ?_)
      rw [hstk]
      exact hp'
  · -- visited_open
    intro p hp
    rcases setVisited_eq_true_iff.1 hp with rfl | hp'
    · exact hopen_n'
    · exact hmono p (inv.visited_open p hp')
  · -- visited_interior
    intro p hp
    rcases setVisited_eq_true_iff.1 hp with rfl | hp'
    · exact hn_int
    · exact inv.visited_interior p hp'
  · -- visited_odd
    intro p hp
    rcases setVisited_eq_true_iff.1 hp with rfl | hp'
    · exact hn_odd
    · exact inv.visited_odd p hp'
  · -- odd_open_visited
    intro p hp hodd
    rcases (hg' p).1 hp with rfl | rfl | hp'
    · exact absurd hodd hm_notodd
    · exact setVisited_eq_true_iff.2 (Or.inl rfl)
    · exact setVisited_mono (inv.odd_open_visited p hp' hodd)
  · -- mixed_x
    intro p hp hx
    rcases (hg' p).1 hp with rfl | rfl | hp'
    · rcases hmx hx with ⟨hc, hn'⟩ | ⟨hn', hc⟩
      · rw [hc, hn']
        exact ⟨hopen_cur', hopen_n'⟩
      · rw [hc, hn']
        exact ⟨hopen_n', hopen_cur'⟩
    · exact absurd hx (by have := hn_odd.1; omega)
    · obtain ⟨hl, hr⟩ := inv.mixed_x p hp' hx
      exact ⟨hmono _ hl, hmono _ hr⟩
  · -- mixed_y
    intro p hp hy
    rcases (hg' p).1 hp with rfl | rfl | hp'
    · rcases hmy hy with ⟨hc, hn'⟩ | ⟨hn', hc⟩
      · rw [hc, hn']
        exact ⟨hopen_cur', hopen_n'⟩
      · rw [hc, hn']
        exact ⟨hopen_n', hopen_cur'⟩
    · exact absurd hy (by have := hn_odd.2; omega)
    · obtain ⟨hl, hr⟩ := inv.mixed_y p hp' hy
      exact ⟨hmono _ hl, hmono _ hr⟩
  · -- start_visited
    exact setVisited_mono inv.start_visited
  · -- reach
    intro p hp
    rcases (hg' p).1 hp with rfl | rfl | hp'
    · exact hreach_m
    · exact hreach_n
    · exact (inv.reach p hp').mono hmono
  · -- done
    intro p hp
    rcases setVisited_eq_true_iff.1 hp with rfl | hp'
    · exact Or.inl (List.mem_cons_self _ _)
    · rcases inv.done p hp' with hmem | hdone
      · left
        rw [hstk] at hmem
        exact List.mem_cons_of_mem _ hmem
      · right
        intro d' hd' hint
        exact setVisited_mono (hdone d' hd' hint)
  · -- count
    have hoddset : (box w h).filter
          (fun p => carve (carve s.grid n) m p = 0 ∧ oddPair p)
        = insert n ((box w h).filter (fun p => s.grid p = 0 ∧ oddPair p)) := by
      ext q
      simp only [Finset.mem_filter, Finset.mem_insert]
      constructor
      · rintro ⟨hbox, hq0, hodd⟩
        rcases (hg' q).1 hq0 with rfl | rfl | hq0'
        · exact absurd hodd hm_notodd
        · exact Or.inl rfl
        · exact Or.inr ⟨hbox, hq0', hodd⟩
      · rintro (rfl | ⟨hbox, hq0, hodd⟩)
        · exact ⟨interior_mem_box hn_int, hopen_n', hn_odd⟩
        · exact ⟨hbox, hmono q hq0, hodd⟩
    have hmixset : (box w h).filter
          (fun p => carve (carve s.grid n) m p = 0 ∧ ¬ oddPair p)
        = insert m ((box w h).filter (fun p => s.grid p = 0 ∧ ¬ oddPair p)) := by
      ext q
      simp only [Finset.mem_filter, Finset.mem_insert]
      constructor
      · rintro ⟨hbox, hq0, hodd⟩
        rcases (hg' q).1 hq0 with rfl | rfl | hq0'
        · exact Or.inl rfl
        · exact absurd hn_odd hodd
        · exact Or.inr ⟨hbox, hq0', hodd⟩
      · rintro (rfl | ⟨hbox, hq0, hodd⟩)
        · exact ⟨interior_mem_box hm_int, hopen_m', hm_notodd⟩
        · exact ⟨hbox, hmono q hq0, hodd⟩
    have hnmem : n ∉ (box w h).filter (fun p => s.grid p = 0 ∧ oddPair p) := by
      intro hmem
      exact hn_wall (Finset.mem_filter.1 hmem).2.1
    have hmmem : m ∉ (box w h).filter (fun p => s.grid p = 0 ∧ ¬ oddPair p) := by
      intro hmem
      exact hm_wall (Finset.mem_filter.1 hmem).2.1
    rw [hoddset, hmixset, Finset.card_insert_of_not_mem hnmem,
      Finset.card_insert_of_not_mem hmmem, inv.count]
  · -- acyclic
    exact isAcyclic_carve2 inv.acyclic hcur_open hm_wall hn_wall hadj_cm hadj_mn
      hne_cn hm_only hn_only

lemma stepLoop_none {w h : Int} {dirs : List Pos} {s : GenState} {cur : Pos}
    {rest : List Pos} (hstk : s.stack = cur :: rest)
    (hpk : pickDir w h s.visited cur dirs = none) :
    stepLoop w h dirs s = { s with stack := rest } := by
  unfold stepLoop
  simp only [hstk, hpk]

lemma stepLoop_some {w h : Int} {dirs : List Pos} {s : GenState} {cur : Pos}
    {rest : List Pos} {d : Pos} (hstk : s.stack = cur :: rest)
    (hpk : pickDir w h s.visited cur dirs = some d) :
    stepLoop w h dirs s =
      ⟨carve (carve s.grid (cur.1 + d.1, cur.2 + d.2))
        (cur.1 + d.1 / 2, cur.2 + d.2 / 2),
       setVisited s.visited (cur.1 + d.1, cur.2 + d.2),
       (cur.1 + d.1, cur.2 + d.2) :: cur :: rest⟩ := by
  unfold stepLoop
  simp only [hstk, hpk]

lemma inv_step {w h : Int} {dirs : List Pos} {s : GenState}
    (inv : Inv w h s) (hperm : dirs.Perm directions) :
    Inv w h (stepLoop w h dirs s) := by
  cases hstk : s.stack with
  | nil =>
      unfold stepLoop
      rw [hstk]
      exact inv
  | cons cur rest =>
      cases hpk : pickDir w h s.visited cur dirs with
      | none =>
          rw [stepLoop_none hstk hpk]
          refine ⟨inv.grid01, inv.border, inv.parity, ?_, inv.visited_open,
            inv.visited_interior, inv.visited_odd, inv.odd_open_visited,
            inv.mixed_x, inv.mixed_y, inv.start_visited, inv.reach, ?_,
            inv.count, inv.acyclic⟩
          · intro p hp
            refine inv.stack_visited p ?_
            rw [hstk]
            exact List.mem_cons_of_mem _ hp
          · intro p hp
            rcases inv.done p hp with hmem | hdone
            · rw [hstk] at hmem
              rcases List.mem_cons.1 hmem with rfl | hmem'
              · right
                intro d' hd' hint
                exact pickDir_eq_none hpk d' (hperm.mem_iff.2 hd') hint
              · exact Or.inl hmem'
            · exact Or.inr hdone
      | some d =>
          obtain ⟨hdmem, hn_int, hn_unvis⟩ := pickDir_eq_some hpk
          have hdv := dir_div_facts (hperm.mem_iff.1 hdmem)
          have hcur_vis : s.visited cur = true := by
            refine inv.stack_visited cur ?_
            rw [hstk]
            exact List.mem_cons_self _ _
          obtain ⟨hc1, hc2⟩ := inv.visited_odd cur hcur_vis
          have hcur_int := inv.visited_interior cur hcur_vis
          rw [inInterior_iff] at hcur_int
          have hn_int' := hn_int
          rw [inInterior_iff] at hn_int'
          dsimp only at hn_int'
          rw [stepLoop_some hstk hpk]
          refine inv_found_aux inv hstk (cur.1 + d.1, cur.2 + d.2)
            (cur.1 + d.1 / 2, cur.2 + d.2 / 2) hn_int ?_ hn_unvis ?_ ?_ ?_ ?_ ?_ ?_ ?_
          · -- hm_int
            rw [inInterior_iff]
            dsimp only
            omega
          · -- hn_odd
            refine ⟨?_, ?_⟩ <;> dsimp only <;> omega
          · -- hm_notodd
            rintro ⟨ho1, ho2⟩
            dsimp only at ho1 ho2
            omega
          · -- hm_par
            dsimp only
            omega
          · -- hadj_cm
            unfold adjacent
            dsimp only
            omega
          · -- hadj_mn
            unfold adjacent
            dsimp only
            omega
          · -- hmx
            intro hx
            dsimp only at hx
            rcases hdv with ⟨e1, e2, e34⟩ | ⟨e1, e2, ⟨e3, e4⟩ | ⟨e3, e4⟩⟩
            · exfalso
              omega
            · right
              constructor <;> (rw [Prod.ext_iff]; constructor <;> dsimp only <;> omega)
            · left
              constructor <;> (rw [Prod.ext_iff]; constructor <;> dsimp only <;> omega)
          · -- hmy
            intro hy
            dsimp only at hy
            rcases hdv with ⟨e1, e2, ⟨e3, e4⟩ | ⟨e3, e4⟩⟩ | ⟨e1, e2, e34⟩
            · right
              constructor <;> (rw [Prod.ext_iff]; constructor <;> dsimp only <;> omega)
            · left
              constructor <;> (rw [Prod.ext_iff]; constructor <;> dsimp only <;> omega)
            · exfalso
              omega

lemma inv_run {w h : Int} {rand : Nat → List Pos}
    (hperm : ∀ i, (rand i).Perm directions) :
    ∀ fuel i {s : GenState}, Inv w h s → Inv w h (runLoop w h rand fuel i s) := by
  intro fuel
  induction fuel with
  | zero =>
      intro i s hs
      exact hs
  | succ f ih =>
      intro i s hs
      cases hstk : s.stack with
      | nil =>
          rw [runLoop_of_stack_empty hstk]
          exact hs
      | cons c r =>
          rw [runLoop_succ_cons hstk]
          exact ih (i + 1) (inv_step hs (hperm i))

lemma inv_final {w h : Int} {rand : Nat → List Pos} (hw : 3 ≤ w) (hh : 3 ≤ h)
    (hperm : ∀ i, (rand i).Perm directions) : Inv w h (finalState rand w h) :=
  inv_run hperm _ _ (inv_init hw hh)

/-! ### Completeness: the loop visits the whole interior odd lattice -/

lemma final_closed {w h : Int} {rand : Nat → List Pos} (hw : 3 ≤ w) (hh : 3 ≤ h)
    (hperm : ∀ i, (rand i).Perm directions) :
    ∀ p, (finalState rand w h).visited p = true →
      ∀ d ∈ directions, inInterior w h (p.1 + d.1, p.2 + d.2) = true →
        (finalState rand w h).visited (p.1 + d.1, p.2 + d.2) = true := by
  intro p hp d hd hint
  rcases (inv_final hw hh hperm).done p hp with hmem | hdone
  · rw [finalState_stack_empty] at hmem
    simp at hmem
  · exact hdone d hd hint

/-- The interior odd lattice is connected under steps of `±2`: any visited-set
closed under such steps and containing `(1,1)` contains every interior cell
with two odd coordinates. -/
lemma lattice_visited {w h : Int} {V : Pos → Bool}
    (hstart : V startPos = true)
    (hclosed : ∀ p, V p = true → ∀ d ∈ directions,
      inInterior w h (p.1 + d.1, p.2 + d.2) = true →
        V (p.1 + d.1, p.2 + d.2) = true) :
    ∀ x y : Int, x % 2 = 1 → y % 2 = 1 → 0 < x → x < w - 1 → 0 < y → y < h - 1 →
      V (x, y) = true := by
  have main : ∀ k : Nat, ∀ x y : Int, (x + y).toNat = k →
      x % 2 = 1 → y % 2 = 1 → 0 < x → x < w - 1 → 0 < y → y < h - 1 →
      V (x, y) = true := by
    intro k
    induction k using Nat.strong_induction_on with
    | _ k ih =>
        intro x y hk hx hy hx0 hxw hy0 hyh
        by_cases h1 : x = 1
        · by_cases h2 : y = 1
          · subst h1
            subst h2
            exact hstart
          · have hprev : V (x, y - 2) = true :=
              ih ((x + (y - 2)).toNat) (by omega) x (y - 2) rfl hx (by omega)
                hx0 hxw (by omega) (by omega)
            have hstep := hclosed (x, y - 2) hprev (0, 2) (by simp [directions])
              (by rw [inInterior_iff]; dsimp only; omega)
            have heq : ((x, y - 2).1 + ((0 : Int), (2 : Int)).1,
                (x, y - 2).2 + ((0 : Int), (2 : Int)).2) = (x, y) := by
              rw [Prod.ext_iff]
              constructor <;> dsimp only <;> omega
            rwa [heq] at hstep
        · have hprev : V (x - 2, y) = true :=
            ih ((x - 2 + y).toNat) (by omega) (x - 2) y rfl (by omega) hy
              (by omega) (by omega) hy0 hyh
          have hstep := hclosed (x - 2, y) hprev (2, 0) (by simp [directions])
            (by rw [inInterior_iff]; dsimp only; omega)
          have heq : ((x - 2, y).1 + ((2 : Int), (0 : Int)).1,
              (x - 2, y).2 + ((2 : Int), (0 : Int)).2) = (x, y) := by
            rw [Prod.ext_iff]
            constructor <;> dsimp only <;> omega
          rwa [heq] at hstep
  intro x y hx hy hx0 hxw hy0 hyh
  exact main ((x + y).toNat) x y rfl hx hy hx0 hxw hy0 hyh

lemma final_all_visited {w h : Int} {rand : Nat → List Pos} (hw : 3 ≤ w)
    (hh : 3 ≤ h) (hperm : ∀ i, (rand i).Perm directions) :
    ∀ p : Pos, oddPair p → inInterior w h p = true →
      (finalState rand w h).visited p = true := by
  intro p hodd hint
  rw [inInterior_iff] at hint
  have := lattice_visited (inv_final hw hh hperm).start_visited
    (final_closed hw hh hperm) p.1 p.2 hodd.1 hodd.2
    hint.1 hint.2.1 hint.2.2.1 hint.2.2.2
  rwa [Prod.mk.eta] at this

/-! ### The produced `MazeGrid` -/

lemma oddify_emod (n : Int) : oddify n % 2 = 1 := by
  unfold oddify
  split <;> omega

lemma le_oddify (n : Int) : n ≤ oddify n := by
  unfold oddify
  split <;> omega

lemma generateMaze_width (rand : Nat → List Pos) (width height : Int) :
    (generateMaze rand width height).width = oddify width := rfl

lemma generateMaze_height (rand : Nat → List Pos) (width height : Int) :
    (generateMaze rand width height).height = oddify height := rfl

lemma generateMaze_start (rand : Nat → List Pos) (width height : Int) :
    (generateMaze rand width height).start = startPos := rfl

lemma generateMaze_endCell (rand : Nat → List Pos) (width height : Int) :
    (generateMaze rand width height).endCell
      = (oddify width - 2, oddify height - 2) := rfl

lemma generateMaze_grid (rand : Nat → List Pos) (width height : Int) :
    (generateMaze rand width height).grid
      = carve (finalState rand (oddify width) (oddify height)).grid
          (oddify width - 2, oddify height - 2) := rfl

lemma endCell_open_final {rand : Nat → List Pos} {width height : Int}
    (hw : 3 ≤ width) (hh : 3 ≤ height)
    (hperm : ∀ i, (rand i).Perm directions) :
    (finalState rand (oddify width) (oddify height)).grid
      (oddify width - 2, oddify height - 2) = 0 := by
  have hw' : 3 ≤ oddify width := le_trans hw (le_oddify width)
  have hh' : 3 ≤ oddify height := le_trans hh (le_oddify height)
  have hwodd := oddify_emod width
  have hhodd := oddify_emod height
  have hv := final_all_visited hw' hh' hperm
    (oddify width - 2, oddify height - 2)
    ⟨by dsimp only; omega, by dsimp only; omega⟩
    (by rw [inInterior_iff]; dsimp only; omega)
  exact (inv_final hw' hh' hperm).visited_open _ hv

/-- Under the stated hypotheses the forced-open end cell was already open, so
the returned grid coincides with the grid left by the loop. -/
lemma generateMaze_grid_eq {rand : Nat → List Pos} {width height : Int}
    (hw : 3 ≤ width) (hh : 3 ≤ height)
    (hperm : ∀ i, (rand i).Perm directions) :
    (generateMaze rand width height).grid
      = (finalState rand (oddify width) (oddify height)).grid := by
  funext q
  rw [generateMaze_grid]
  by_cases hq : q = (oddify width - 2, oddify height - 2)
  · rw [hq, carve_self]
    exact (endCell_open_final hw hh hperm).symm
  · exact carve_ne _ hq

lemma generateMaze_open_reach {rand : Nat → List Pos} {width height : Int}
    (hw : 3 ≤ width) (hh : 3 ≤ height)
    (hperm : ∀ i, (rand i).Perm directions) :
    ∀ p, (generateMaze rand width height).grid p = 0 →
      Reaches (generateMaze rand width height).grid
        (generateMaze rand width height).start p := by
  have hw' : 3 ≤ oddify width := le_trans hw (le_oddify width)
  have hh' : 3 ≤ oddify height := le_trans hh (le_oddify height)
  intro p hp
  rw [generateMaze_grid_eq hw hh hperm] at hp ⊢
  rw [generateMaze_start]
  exact (inv_final hw' hh' hperm).reach p hp

/-- A fixed shuffle stream: the directions always come back in their original
order (one possible outcome of the random shuffles). -/
def rand0 : Nat → List Pos := fun _ => directions

/-! ### Claims about the maze generator -/

/-- Claim C1: for all dimensions at least 3 and every stream of direction
shuffles, the generated maze is connected: the end cell is `OPEN` and a
4-connected path of `OPEN` cells leads from `start` to every `OPEN` cell of
the grid, in particular to `end`. -/
theorem maze_connected (rand : Nat → List Pos) (width height : Int)
    (hw : 3 ≤ width) (hh : 3 ≤ height)
    (hperm : ∀ i, (rand i).Perm directions) :
    (∀ p, (generateMaze rand width height).grid p = 0 →
      Reaches (generateMaze rand width height).grid
        (generateMaze rand width height).start p) ∧
    (generateMaze rand width height).grid
      (generateMaze rand width height).endCell = 0 ∧
    Reaches (generateMaze rand width height).grid
      (generateMaze rand width height).start
      (generateMaze rand width height).endCell := by
  have hopen : (generateMaze rand width height).grid
      (generateMaze rand width height).endCell = 0 := by
    rw [generateMaze_grid_eq hw hh hperm, generateMaze_endCell]
    exact endCell_open_final hw hh hperm
  exact ⟨generateMaze_open_reach hw hh hperm, hopen,
    generateMaze_open_reach hw hh hperm _ hopen⟩

/-- Witness for C1 at a concrete 5×5 instance. -/
theorem maze_connected_witness :
    Reaches (generateMaze rand0 5 5).grid (generateMaze rand0 5 5).start
      (generateMaze rand0 5 5).endCell :=
  (maze_connected rand0 5 5 (by norm_num) (by norm_num)
    (fun _ => List.Perm.refl _)).2.2

/-- Claim C7: each even requested dimension is coerced to the next odd integer,
odd dimensions are kept, the returned record carries the coerced values, and
the results are odd. -/
theorem maze_odd_dimensions (rand : Nat → List Pos) (width height : Int) :
    ((width % 2 = 0 → (generateMaze rand width height).width = width + 1) ∧
     (¬ width % 2 = 0 → (generateMaze rand width height).width = width)) ∧
    ((height % 2 = 0 → (generateMaze rand width height).height = height + 1) ∧
     (¬ height % 2 = 0 → (generateMaze rand width height).height = height)) ∧
    (generateMaze rand width height).width % 2 = 1 ∧
    (generateMaze rand width height).height % 2 = 1 := by
  rw [generateMaze_width, generateMaze_height]
  refine ⟨⟨?_, ?_⟩, ⟨?_, ?_⟩, oddify_emod width, oddify_emod height⟩ <;>
    (intro hpar; unfold oddify; simp [hpar])

/-- Witness for C7: `generate(10, 10)` yields an 11×11 grid. -/
theorem maze_odd_dimensions_witness :
    (generateMaze rand0 10 10).width = 11 ∧
    (generateMaze rand0 10 10).height = 11 := by
  have h := maze_odd_dimensions rand0 10 10
  constructor
  · have := h.1.1 (by norm_num)
    rw [this]
    norm_num
  · have := h.2.1.1 (by norm_num)
    rw [this]
    norm_num

/-- Claim C8: every border cell of the generated grid is `WALL` (= 1). -/
theorem maze_border_walls (rand : Nat → List Pos) (width height : Int)
    (hw : 3 ≤ width) (hh : 3 ≤ height)
    (hperm : ∀ i, (rand i).Perm directions) :
    ∀ p : Pos, 0 ≤ p.1 → p.1 < (generateMaze rand width height).width →
      0 ≤ p.2 → p.2 < (generateMaze rand width height).height →
      (p.1 = 0 ∨ p.1 = (generateMaze rand width height).width - 1 ∨
        p.2 = 0 ∨ p.2 = (generateMaze rand width height).height - 1) →
      (generateMaze rand width height).grid p = 1 := by
  have hw' : 3 ≤ oddify width := le_trans hw (le_oddify width)
  have hh' : 3 ≤ oddify height := le_trans hh (le_oddify height)
  intro p _ _ _ _ hb
  rw [generateMaze_width] at hb
  rw [generateMaze_height] at hb
  rw [generateMaze_grid_eq hw hh hperm]
  rcases (inv_final hw' hh' hperm).grid01 p with h0 | h1
  · exfalso
    have hint := (inv_final hw' hh' hperm).border p h0
    rw [inInterior_iff] at hint
    omega
  · exact h1

/-- Witness for C8: the corner cell of a 5×5 maze is a wall. -/
theorem maze_border_walls_witness : (generateMaze rand0 5 5).grid (0, 0) = 1 :=
  maze_border_walls rand0 5 5 (by norm_num) (by norm_num)
    (fun _ => List.Perm.refl _) (0, 0) (by norm_num) (by decide) (by norm_num)
    (by decide) (by norm_num)

/-- Claim C9: the carving loop always terminates: within the explicit fuel
budget `genFuel` the stack is empty, and giving the loop any more fuel does
not change the resulting state (the loop has reached its exit condition). -/
theorem maze_terminates (rand : Nat → List Pos) (width height : Int)
    (hw : 3 ≤ width) (hh : 3 ≤ height) :
    (finalState rand (oddify width) (oddify height)).stack = [] ∧
    ∀ f, genFuel (oddify width) (oddify height) ≤ f →
      runLoop (oddify width) (oddify height) rand f 0 initState
        = finalState rand (oddify width) (oddify height) :=
  ⟨finalState_stack_empty rand _ _,
   fun f hf => runLoop_fuel_irrelevant _ f 0 _ hf
     (finalState_stack_empty rand _ _)⟩

/-- Witness for C9 at a concrete 5×5 instance. -/
theorem maze_terminates_witness :
    (finalState rand0 (oddify 5) (oddify 5)).stack = [] :=
  (maze_terminates rand0 5 5 (by norm_num) (by norm_num)).1

/-- Claim C10: cells with two even coordinates are never carved: every cell of
the generated grid with both coordinates even is `WALL` (= 1). -/
theorem maze_even_cells_wall (rand : Nat → List Pos) (width height : Int)
    (hw : 3 ≤ width) (hh : 3 ≤ height)
    (hperm : ∀ i, (rand i).Perm directions) :
    ∀ p : Pos, p.1 % 2 = 0 → p.2 % 2 = 0 →
      (generateMaze rand width height).grid p = 1 := by
  have hw' : 3 ≤ oddify width := le_trans hw (le_oddify width)
  have hh' : 3 ≤ oddify height := le_trans hh (le_oddify height)
  intro p hp1 hp2
  rw [generateMaze_grid_eq hw hh hperm]
  rcases (inv_final hw' hh' hperm).grid01 p with h0 | h1
  · exfalso
    have := (inv_final hw' hh' hperm).parity p h0
    omega
  · exact h1

/-- Witness for C10: the cell `(2,2)` of a 5×5 maze is a wall. -/
theorem maze_even_cells_wall_witness :
    (generateMaze rand0 5 5).grid (2, 2) = 1 :=
  maze_even_cells_wall rand0 5 5 (by norm_num) (by norm_num)
    (fun _ => List.Perm.refl _) (2, 2) (by decide) (by decide)

/-! ### Claim C2: spanning-tree structure of the open cells -/

/-- Number of open cells of the produced grid (within its bounds). -/
def openCellCount (m : MazeGrid) : Nat :=
  ((box m.width m.height).filter (fun p => m.grid p = 0)).card

/-- Open cells with both coordinates odd: the lattice nodes the carving
visits. -/
def openNodeCount (m : MazeGrid) : Nat :=
  ((box m.width m.height).filter (fun p => m.grid p = 0 ∧ oddPair p)).card

/-- The number of carved connections.  Each execution of the source line
`grid[current.y + dir.y/2][current.x + dir.x/2] = 0` (carving the wall
between two lattice cells) opens exactly one fresh cell of mixed parity, and
no other line opens such a cell, so the carved connections are counted by the
open cells that are not lattice nodes. -/
def carvedConnections (m : MazeGrid) : Nat :=
  ((box m.width m.height).filter (fun p => m.grid p = 0 ∧ ¬ oddPair p)).card

lemma Reaches.toReachable {g : Pos → Nat} {a b : Pos} (h : Reaches g a b) :
    (openGraph g).Reachable a b := by
  induction h with
  | refl => exact SimpleGraph.Reachable.refl _
  | tail _ hstep ih =>
      exact SimpleGraph.Reachable.trans ih (SimpleGraph.Adj.reachable hstep)

lemma reach_iff_open {rand : Nat → List Pos} {width height : Int}
    (hw : 3 ≤ width) (hh : 3 ≤ height)
    (hperm : ∀ i, (rand i).Perm directions) :
    ∀ p, Reaches (generateMaze rand width height).grid
        (generateMaze rand width height).start p ↔
      (generateMaze rand width height).grid p = 0 := by
  have hw' : 3 ≤ oddify width := le_trans hw (le_oddify width)
  have hh' : 3 ≤ oddify height := le_trans hh (le_oddify height)
  have hstart : (generateMaze rand width height).grid
      (generateMaze rand width height).start = 0 := by
    rw [generateMaze_grid_eq hw hh hperm, generateMaze_start]
    exact (inv_final hw' hh' hperm).visited_open _
      (inv_final hw' hh' hperm).start_visited
  intro p
  constructor
  · intro hr
    exact hr.open_of_open_start hstart
  · intro hp
    exact generateMaze_open_reach hw hh hperm p hp

/-- Claim C2, amended: the open cells of the generated maze form a (subdivided)
spanning tree: the number of open lattice nodes exceeds the number of carved
connections by one, so the total number of open cells is twice the number of
carved connections plus one; the open subgraph is acyclic; and between any
two open cells there is exactly one simple path. -/
theorem maze_spanning_tree (rand : Nat → List Pos) (width height : Int)
    (hw : 3 ≤ width) (hh : 3 ≤ height)
    (hperm : ∀ i, (rand i).Perm directions) :
    openNodeCount (generateMaze rand width height)
        = carvedConnections (generateMaze rand width height) + 1 ∧
    openCellCount (generateMaze rand width height)
        = 2 * carvedConnections (generateMaze rand width height) + 1 ∧
    (openGraph (generateMaze rand width height).grid).IsAcyclic ∧
    ∀ p q : Pos, (generateMaze rand width height).grid p = 0 →
      (generateMaze rand width height).grid q = 0 →
      ∃! w' : (openGraph (generateMaze rand width height).grid).Walk p q,
        w'.IsPath := by
  have hw' : 3 ≤ oddify width := le_trans hw (le_oddify width)
  have hh' : 3 ≤ oddify height := le_trans hh (le_oddify height)
  have hinv := inv_final hw' hh' hperm
  have hnode : openNodeCount (generateMaze rand width height)
      = carvedConnections (generateMaze rand width height) + 1 := by
    unfold openNodeCount carvedConnections
    rw [generateMaze_grid_eq hw hh hperm, generateMaze_width, generateMaze_height]
    exact hinv.count
  have hsplit : openCellCount (generateMaze rand width height)
      = openNodeCount (generateMaze rand width height)
        + carvedConnections (generateMaze rand width height) := by
    unfold openCellCount openNodeCount carvedConnections
    rw [← Finset.filter_filter, ← Finset.filter_filter,
      Finset.filter_card_add_filter_neg_card_eq_card
        (s := (box (generateMaze rand width height).width
          (generateMaze rand width height).height).filter
            (fun p => (generateMaze rand width height).grid p = 0))
        (p := fun p => oddPair p)]
  have hacyc : (openGraph (generateMaze rand width height).grid).IsAcyclic := by
    rw [generateMaze_grid_eq hw hh hperm]
    exact hinv.acyclic
  refine ⟨hnode, by omega, hacyc, ?_⟩
  intro p q hp hq
  have hreach : (openGraph (generateMaze rand width height).grid).Reachable p q := by
    have h1 := (generateMaze_open_reach hw hh hperm p hp).toReachable
    have h2 := (generateMaze_open_reach hw hh hperm q hq).toReachable
    exact h1.symm.trans h2
  obtain ⟨wk⟩ := hreach
  refine ⟨(wk.toPath : SimpleGraph.Path _ p q).val,
    (wk.toPath : SimpleGraph.Path _ p q).property, ?_⟩
  intro w' hw'
  have := SimpleGraph.isAcyclic_iff_path_unique.1 hacyc ⟨w', hw'⟩ wk.toPath
  exact congrArg Subtype.val this

/-- Witness for the amended C2 at a concrete 5×5 instance. -/
theorem maze_spanning_tree_witness :
    openNodeCount (generateMaze rand0 5 5)
      = carvedConnections (generateMaze rand0 5 5) + 1 :=
  (maze_spanning_tree rand0 5 5 (by norm_num) (by norm_num)
    (fun _ => List.Perm.refl _)).1

open Classical in
/-- Counterexample to C2 as literally stated: on the concrete 5×5 maze
generated with the identity shuffles, the number of `OPEN` cells reachable
from `start` is 7 (all open cells, the four lattice nodes plus the three
carved connections), so that count minus 1 is 6, which differs from the
number of carved connections, 3. -/
theorem maze_count_claim_counterexample :
    ¬ (((box (generateMaze rand0 5 5).width (generateMaze rand0 5 5).height).filter
        (fun p => (generateMaze rand0 5 5).grid p = 0 ∧
          Reaches (generateMaze rand0 5 5).grid (generateMaze rand0 5 5).start p)).card
        - 1
      = carvedConnections (generateMaze rand0 5 5)) := by
  have hfilter : (box (generateMaze rand0 5 5).width
      (generateMaze rand0 5 5).height).filter
        (fun p => (generateMaze rand0 5 5).grid p = 0 ∧
          Reaches (generateMaze rand0 5 5).grid (generateMaze rand0 5 5).start p)
      = (box (generateMaze rand0 5 5).width
          (generateMaze rand0 5 5).height).filter
            (fun p => (generateMaze rand0 5 5).grid p = 0) := by
    refine Finset.filter_congr ?_
    intro p _
    constructor
    · intro hp
      exact hp.1
    · intro hp
      exact ⟨hp, (reach_iff_open (by norm_num) (by norm_num)
        (fun _ => List.Perm.refl _) p).2 hp⟩
  rw [hfilter]
  decide

end MazeGen

/-!
## Maze collision queries and movement resolution

Embeds the `isWall` closure and the axis-separated sliding of the walk-mode
branch of `GameScene.tsx` (lines 4134-4159).  World coordinates are embedded
as exact rationals; the grid indices `gx`/`gy` computed by `Math.floor` are
integers.
-/

namespace Collision

open MazeGen (MazeGrid Pos)

/-- The `isWall` closure (GameScene.tsx lines 4141-4146), parametrized by the
maze grid and its world placement `(originX, originZ, cellSize)`; the source
instantiates the placement with `mazeOriginX/Z` computed from `MAZE_POS` and
`MAZE_CELL_SIZE`, while the claim quantifies over every placement. -/
def isWall (m : MazeGrid) (originX originZ cellSize : ℚ) (wx wz : ℚ) : Bool :=
  let gx : Int := ⌊(wx - originX + cellSize / 2) / cellSize⌋
  let gy : Int := ⌊(wz - originZ + cellSize / 2) / cellSize⌋
  if gx < 0 ∨ m.width ≤ gx ∨ gy < 0 ∨ m.height ≤ gy then true
  else decide (m.grid (gx, gy) = 1)

/-- The computation the spec describes for `isWall` (§4.3): `col`/`row` by
floor division with a half-cell offset, `true` whenever `row`/`col` is
outside `[0, height)`/`[0, width)`, else whether `grid[row][col] == WALL`. -/
def isWallSpec (m : MazeGrid) (originX originZ cellSize : ℚ) (wx wz : ℚ) : Bool :=
  let col : Int := ⌊(wx - originX + cellSize / 2) / cellSize⌋
  let row : Int := ⌊(wz - originZ + cellSize / 2) / cellSize⌋
  if row < 0 ∨ m.height ≤ row ∨ col < 0 ∨ m.width ≤ col then true
  else decide (m.grid (col, row) = 1)

/-- Claim C3: `isWall` computes exactly the spec's cell conversion: it agrees
with the spec-described computation everywhere, returns `true` (fail-closed)
whenever the resolved cell is out of bounds, and otherwise tests
`grid[row][col] == WALL`. -/
theorem isWall_matches_spec (m : MazeGrid) (oX oZ cs wx wz : ℚ) :
    (isWall m oX oZ cs wx wz = isWallSpec m oX oZ cs wx wz) ∧
    ((⌊(wx - oX + cs / 2) / cs⌋ < 0 ∨ m.width ≤ ⌊(wx - oX + cs / 2) / cs⌋ ∨
      ⌊(wz - oZ + cs / 2) / cs⌋ < 0 ∨ m.height ≤ ⌊(wz - oZ + cs / 2) / cs⌋) →
      isWall m oX oZ cs wx wz = true) ∧
    (0 ≤ ⌊(wx - oX + cs / 2) / cs⌋ → ⌊(wx - oX + cs / 2) / cs⌋ < m.width →
     0 ≤ ⌊(wz - oZ + cs / 2) / cs⌋ → ⌊(wz - oZ + cs / 2) / cs⌋ < m.height →
      (isWall m oX oZ cs wx wz = true ↔
        m.grid (⌊(wx - oX + cs / 2) / cs⌋, ⌊(wz - oZ + cs / 2) / cs⌋) = 1)) := by
  refine ⟨?_, ?_, ?_⟩
  · simp only [isWall, isWallSpec]
    split_ifs with h1 h2 <;> first | rfl | (exfalso; omega)
  · intro hout
    simp only [isWall]
    split_ifs
    · rfl
  · intro hc1 hc2 hr1 hr2
    simp only [isWall]
    split_ifs with h1
    · exfalso
      omega
    · simp

/-- Witness for C3: a query far outside the world footprint of a 5×5 grid at
cell size 1 is fail-closed. -/
theorem isWall_matches_spec_witness :
    isWall (MazeGen.generateMaze MazeGen.rand0 5 5) 0 0 1 (-100) 7 = true := by
  have h := (isWall_matches_spec (MazeGen.generateMaze MazeGen.rand0 5 5)
    0 0 1 (-100) 7).2.1
  apply h
  left
  norm_num

/-- The sliding resolution of GameScene.tsx lines 4147-4151: test the full
next position; if blocked, try keeping the current `z` (new `x`), then
keeping the current `x` (new `z`); `blocked` stays set only if all three are
walls. -/
def resolveMove (m : MazeGrid) (oX oZ cs : ℚ) (cur next : ℚ × ℚ) :
    (ℚ × ℚ) × Bool :=
  if isWall m oX oZ cs next.1 next.2 then
    if !(isWall m oX oZ cs next.1 cur.2) then ((next.1, cur.2), false)
    else if !(isWall m oX oZ cs cur.1 next.2) then ((cur.1, next.2), false)
    else (next, true)
  else (next, false)

/-- The position the player ends up at:
`if (!blocked) player.position.copy(nextPos)` (line 4159). -/
def acceptedPos (m : MazeGrid) (oX oZ cs : ℚ) (cur next : ℚ × ℚ) : ℚ × ℚ :=
  if (resolveMove m oX oZ cs cur next).2 then cur
  else (resolveMove m oX oZ cs cur next).1

/-- Claim C4: if the full next position is free it is accepted unchanged; if it
is blocked but an axis-separated move is free, that single-axis move is
accepted (`z` reverted first, else `x` reverted), so some progress remains
along the free axis; if the full move and both single-axis moves are blocked
the position is left unchanged. -/
theorem sliding_resolution (m : MazeGrid) (oX oZ cs : ℚ) (cur next : ℚ × ℚ) :
    (isWall m oX oZ cs next.1 next.2 = false →
      acceptedPos m oX oZ cs cur next = next) ∧
    (isWall m oX oZ cs next.1 next.2 = true →
      isWall m oX oZ cs next.1 cur.2 = false →
      acceptedPos m oX oZ cs cur next = (next.1, cur.2)) ∧
    (isWall m oX oZ cs next.1 next.2 = true →
      isWall m oX oZ cs next.1 cur.2 = true →
      isWall m oX oZ cs cur.1 next.2 = false →
      acceptedPos m oX oZ cs cur next = (cur.1, next.2)) ∧
    (isWall m oX oZ cs next.1 next.2 = true →
      isWall m oX oZ cs next.1 cur.2 = true →
      isWall m oX oZ cs cur.1 next.2 = true →
      acceptedPos m oX oZ cs cur next = cur) ∧
    (isWall m oX oZ cs next.1 next.2 = true →
      (isWall m oX oZ cs next.1 cur.2 = false ∨
        isWall m oX oZ cs cur.1 next.2 = false) →
      (acceptedPos m oX oZ cs cur next = (next.1, cur.2) ∧
        isWall m oX oZ cs next.1 cur.2 = false) ∨
      (acceptedPos m oX oZ cs cur next = (cur.1, next.2) ∧
        isWall m oX oZ cs cur.1 next.2 = false)) := by
  refine ⟨?_, ?_, ?_, ?_, ?_⟩
  · intro h1
    simp [acceptedPos, resolveMove, h1]
  · intro h1 h2
    simp [acceptedPos, resolveMove, h1, h2]
  · intro h1 h2 h3
    simp [acceptedPos, resolveMove, h1, h2, h3]
  · intro h1 h2 h3
    simp [acceptedPos, resolveMove, h1, h2, h3]
  · intro h1 h23
    by_cases h2 : isWall m oX oZ cs next.1 cur.2 = false
    · left
      exact ⟨by simp [acceptedPos, resolveMove, h1, h2], h2⟩
    · have h2' : isWall m oX oZ cs next.1 cur.2 = true := by
        cases hb : isWall m oX oZ cs next.1 cur.2
        · exact absurd hb h2
        · rfl
      rcases h23 with h3 | h3
      · exact absurd h3 h2
      · right
        exact ⟨by simp [acceptedPos, resolveMove, h1, h2', h3], h3⟩

/-- A concrete 5×5 grid with a known wall layout for the sliding test: the
cells `(1,1)` and `(2,1)` are open, everything else is wall. -/
def demoGrid : MazeGrid :=
  { width := 5
    height := 5
    grid := fun p => if p = (1, 1) ∨ p = (2, 1) then 0 else 1
    start := (1, 1)
    endCell := (3, 3) }

/-- Witness for C4: standing at the cell `(1,1)` of `demoGrid` (placement
origin 0, cell size 1), a diagonal move into the wall at `(2,2)` resolves to
the lateral-only move `(2,1)`: the colliding `z` component is cancelled and
the `x` progress is kept. -/
theorem sliding_resolution_witness :
    acceptedPos demoGrid 0 0 1 (1, 1) (2, 2) = (2, 1) := by
  have h := (sliding_resolution demoGrid 0 0 1 (1, 1) (2, 2)).2.1
  exact h (by norm_num [isWall, demoGrid]) (by norm_num [isWall, demoGrid])

end Collision

/-!
## The terrain height field

Embeds `getTerrainHeight` of `GameScene.tsx` (lines 2596-2689): a sum of three
sinusoidal terms followed by ten region overrides applied in order.  Each
override is a function of the query point and the accumulated height.
-/

namespace Terrain

noncomputable section

def CASTLE_POS : ℝ × ℝ × ℝ := (0, 60, -200)
def FOREST_POS : ℝ × ℝ × ℝ := (300, 0, 100)
def HOGSMEADE_POS : ℝ × ℝ × ℝ := (-1500, 20, -1500)
def STATION_POS : ℝ × ℝ × ℝ := (1500, 10, 1200)
def AZKABAN_POS : ℝ × ℝ × ℝ := (2800, 0, 2800)
def WILLOW_POS : ℝ × ℝ × ℝ := (-250, 0, -150)
def QUIDDITCH_POS : ℝ × ℝ × ℝ := (800, 30, -800)
def MAZE_POS : ℝ × ℝ × ℝ := (-800, 0, 800)
def MAZE_CELL_SIZE : ℝ := 15
def MAZE_SIZE : ℝ := 31

/-- Source `THREE.MathUtils.lerp(x, y, t) = x + (y - x) * t`. -/
def lerp (x y t : ℝ) : ℝ := x + (y - x) * t

/-- Source `Math.sqrt((x - cx)**2 + (z - cz)**2)`. -/
def distTo (cx cz x z : ℝ) : ℝ := Real.sqrt ((x - cx) ^ 2 + (z - cz) ^ 2)

/-- Base rolling hills, mountains and detail noise (lines 2598-2602). -/
def baseHeight (x z : ℝ) : ℝ :=
  Real.sin (x * 0.005) * Real.cos (z * 0.005) * 40
    + Real.sin (x * 0.002 + 10) * Real.cos (z * 0.002) * 150
    + Real.sin (x * 0.05) * Real.cos (z * 0.05) * 5

/-- Step 1: flatten castle area (lines 2605-2610). -/
def castleStep (x z y : ℝ) : ℝ :=
  if distTo CASTLE_POS.1 CASTLE_POS.2.2 x z < 200 then
    lerp y (CASTLE_POS.2.1 - 5) (max 0 (1 - distTo CASTLE_POS.1 CASTLE_POS.2.2 x z / 200))
  else y

/-- Step 2: flatten Hogsmeade area (lines 2613-2618). -/
def hogsmeadeStep (x z y : ℝ) : ℝ :=
  if distTo HOGSMEADE_POS.1 HOGSMEADE_POS.2.2 x z < 400 then
    lerp y (HOGSMEADE_POS.2.1 - 5)
      (max 0 (1 - distTo HOGSMEADE_POS.1 HOGSMEADE_POS.2.2 x z / 400))
  else y

/-- Step 3: flatten station area (lines 2621-2626). -/
def stationStep (x z y : ℝ) : ℝ :=
  if distTo STATION_POS.1 STATION_POS.2.2 x z < 400 then
    lerp y (STATION_POS.2.1 - 5)
      (max 0 (1 - distTo STATION_POS.1 STATION_POS.2.2 x z / 400))
  else y

/-- Step 4: flatten Quidditch pitch (lines 2629-2634). -/
def pitchStep (x z y : ℝ) : ℝ :=
  if distTo QUIDDITCH_POS.1 QUIDDITCH_POS.2.2 x z < 350 then
    lerp y (QUIDDITCH_POS.2.1 - 2)
      (max 0 (1 - distTo QUIDDITCH_POS.1 QUIDDITCH_POS.2.2 x z / 350))
  else y

/-- Step 5: lake bed clamp (lines 2638-2641). -/
def lakeStep (x z y : ℝ) : ℝ :=
  if -300 < x ∧ x < -50 ∧ 0 < z ∧ z < 400 then min y (-20) else y

/-- Step 6: viaduct path clamp (lines 2644-2646). -/
def viaductStep (x z y : ℝ) : ℝ :=
  if 100 < x ∧ x < 500 ∧ 100 < z ∧ z < 500 then min y 10 else y

/-- Step 7: Azkaban island rock (lines 2649-2653). -/
def azkabanStep (x z y : ℝ) : ℝ :=
  if distTo AZKABAN_POS.1 AZKABAN_POS.2.2 x z < 300 then
    max y (max 0 (120 - distTo AZKABAN_POS.1 AZKABAN_POS.2.2 x z * 0.5))
  else y

/-- Step 8: Forbidden forest dry-land floor (lines 2656-2662). -/
def forestStep (x z y : ℝ) : ℝ :=
  if distTo FOREST_POS.1 FOREST_POS.2.2 x z < 700 then
    max y (5 + Real.sin (x * 0.1) * 2)
  else y

/-- Step 9: Whomping Willow mound (lines 2665-2670). -/
def willowStep (x z y : ℝ) : ℝ :=
  if distTo WILLOW_POS.1 WILLOW_POS.2.2 x z < 120 then
    max y (60 - distTo WILLOW_POS.1 WILLOW_POS.2.2 x z * 0.5)
  else y

/-- The flat radius `(MAZE_SIZE * MAZE_CELL_SIZE) / 2 + 50` (line 2674). -/
def mazeFlatRadius : ℝ := MAZE_SIZE * MAZE_CELL_SIZE / 2 + 50

/-- Line 2675. -/
def mazeBlendRadius : ℝ := 150

/-- Step 10: maze plateau, strict flat clamp inside the flat radius, linear blend
over the band (lines 2677-2686). -/
def mazeStep (x z y : ℝ) : ℝ :=
  if distTo MAZE_POS.1 MAZE_POS.2.2 x z < mazeFlatRadius + mazeBlendRadius then
    if distTo MAZE_POS.1 MAZE_POS.2.2 x z ≤ mazeFlatRadius then MAZE_POS.2.1
    else
      lerp MAZE_POS.2.1 y
        ((distTo MAZE_POS.1 MAZE_POS.2.2 x z - mazeFlatRadius) / mazeBlendRadius)
  else y

/-- Height accumulated right before the maze-plateau override. -/
def terrainBeforeMaze (x z : ℝ) : ℝ :=
  willowStep x z (forestStep x z (azkabanStep x z (viaductStep x z (lakeStep x z
    (pitchStep x z (stationStep x z (hogsmeadeStep x z
      (castleStep x z (baseHeight x z)))))))))

/-- Source `getTerrainHeight` (lines 2596-2689). -/
def getTerrainHeight (x z : ℝ) : ℝ := mazeStep x z (terrainBeforeMaze x z)

end

/-! ### Claims about the terrain field -/

/-- Claim C6: inside the computed flat radius the height is exactly the maze
elevation `MAZE_POS[1]`; across the 150-wide band it is the linear
interpolation, by normalized distance, between the maze elevation and the
height accumulated before this override; at or beyond the end of the band
this override leaves the height unmodified. -/
theorem maze_plateau (x z : ℝ) :
    (distTo MAZE_POS.1 MAZE_POS.2.2 x z ≤ mazeFlatRadius →
      getTerrainHeight x z = MAZE_POS.2.1) ∧
    (mazeFlatRadius < distTo MAZE_POS.1 MAZE_POS.2.2 x z →
      distTo MAZE_POS.1 MAZE_POS.2.2 x z < mazeFlatRadius + mazeBlendRadius →
      getTerrainHeight x z = lerp MAZE_POS.2.1 (terrainBeforeMaze x z)
        ((distTo MAZE_POS.1 MAZE_POS.2.2 x z - mazeFlatRadius) / mazeBlendRadius)) ∧
    (mazeFlatRadius + mazeBlendRadius ≤ distTo MAZE_POS.1 MAZE_POS.2.2 x z →
      getTerrainHeight x z = terrainBeforeMaze x z) := by
  have hblend : (0 : ℝ) < mazeBlendRadius := by norm_num [mazeBlendRadius]
  unfold getTerrainHeight mazeStep
  refine ⟨?_, ?_, ?_⟩
  · intro hle
    rw [if_pos (by linarith), if_pos hle]
  · intro hgt hlt
    rw [if_pos hlt, if_neg (by linarith)]
  · intro hge
    rw [if_neg (by linarith)]

/-- Witness for C6: at the maze center the height is exactly the maze
elevation 0. -/
theorem maze_plateau_witness : getTerrainHeight (-800) 800 = 0 := by
  have h := (maze_plateau (-800) 800).1
  have hd : distTo MAZE_POS.1 MAZE_POS.2.2 (-800) 800 ≤ mazeFlatRadius := by
    have hz : distTo MAZE_POS.1 MAZE_POS.2.2 (-800) 800 = 0 := by
      show Real.sqrt (((-800 : ℝ) - -800) ^ 2 + ((800 : ℝ) - 800) ^ 2) = 0
      norm_num
    rw [hz]
    norm_num [mazeFlatRadius, MAZE_SIZE, MAZE_CELL_SIZE]
  have := h hd
  rw [this]
  norm_num [MAZE_POS]

lemma willowStep_le (x z y : ℝ) : y ≤ willowStep x z y := by
  unfold willowStep
  split_ifs
  · exact le_max_left _ _
  · exact le_refl y

lemma distTo_lt {cx cz x z c : ℝ} (hc : 0 ≤ c)
    (h : (x - cx) ^ 2 + (z - cz) ^ 2 < c ^ 2) : distTo cx cz x z < c := by
  unfold distTo
  calc Real.sqrt ((x - cx) ^ 2 + (z - cz) ^ 2) < Real.sqrt (c ^ 2) :=
        Real.sqrt_lt_sqrt (by positivity) h
  _ = c := Real.sqrt_sq hc

lemma le_distTo {cx cz x z c : ℝ} (hc : 0 ≤ c)
    (h : c ^ 2 ≤ (x - cx) ^ 2 + (z - cz) ^ 2) : c ≤ distTo cx cz x z := by
  unfold distTo
  calc c = Real.sqrt (c ^ 2) := (Real.sqrt_sq hc).symm
  _ ≤ Real.sqrt ((x - cx) ^ 2 + (z - cz) ^ 2) := Real.sqrt_le_sqrt h

/-- The forest dry-land override covers the whole lake rectangle: every point
of the rectangle is within 700 of `FOREST_POS = (300, _, 100)` (the farthest
corner `(-300, 400)` is at distance `sqrt 450000 < 700`), so after the lake
clamp the forest floor raises the height back to
`5 + sin(x·0.1)·2 ≥ 3`, and the later overrides (willow mound, maze plateau)
never lower it there: the final height is at least 3, never at most -20. -/
theorem lake_forest_override (x z : ℝ)
    (hx1 : -300 < x) (hx2 : x < -50) (hz1 : 0 < z) (hz2 : z < 400) :
    3 ≤ getTerrainHeight x z ∧ ¬ getTerrainHeight x z ≤ -20 := by
  have hforest_fires : distTo FOREST_POS.1 FOREST_POS.2.2 x z < 700 := by
    apply distTo_lt (by norm_num)
    show (x - 300) ^ 2 + (z - 100) ^ 2 < 700 ^ 2
    have h1 : (0:ℝ) < (x + 300) * (900 - x) := mul_pos (by linarith) (by linarith)
    have h2 : (0:ℝ) < (400 - z) * (z + 200) := mul_pos (by linarith) (by linarith)
    nlinarith [h1, h2]
  have h3 : ∀ y, 3 ≤ forestStep x z y := by
    intro y
    unfold forestStep
    rw [if_pos hforest_fires]
    have hs := Real.neg_one_le_sin (x * 0.1)
    have hle : (3:ℝ) ≤ 5 + Real.sin (x * 0.1) * 2 := by linarith
    exact le_trans hle (le_max_right _ _)
  have hmaze_skip : mazeFlatRadius + mazeBlendRadius ≤
      distTo MAZE_POS.1 MAZE_POS.2.2 x z := by
    have hd : (432.5 : ℝ) ≤ distTo MAZE_POS.1 MAZE_POS.2.2 x z := by
      apply le_distTo (by norm_num)
      show ((432.5 : ℝ)) ^ 2 ≤ (x - -800) ^ 2 + (z - 800) ^ 2
      have h1 : (500:ℝ) < x + 800 := by linarith
      nlinarith [h1]
    have heq : mazeFlatRadius + mazeBlendRadius = 432.5 := by
      norm_num [mazeFlatRadius, mazeBlendRadius, MAZE_SIZE, MAZE_CELL_SIZE]
    rw [heq]
    exact hd
  have hfinal : getTerrainHeight x z = terrainBeforeMaze x z := by
    unfold getTerrainHeight mazeStep
    rw [if_neg (not_lt.2 hmaze_skip)]
  have hge : 3 ≤ terrainBeforeMaze x z := by
    unfold terrainBeforeMaze
    exact le_trans (h3 _) (willowStep_le _ _ _)
  rw [hfinal]
  exact ⟨hge, by linarith⟩

/-- The concrete failing input for C5: the point `(-60, 100)` lies in the
lake rectangle, yet the final height is not capped at -20 (it is
`5 + 2·sin(-6) ≈ 6.1`). -/
theorem lake_bed_cap_failing_input : ¬ getTerrainHeight (-60) 100 ≤ -20 :=
  (lake_forest_override (-60) 100 (by norm_num) (by norm_num) (by norm_num)
    (by norm_num)).2

end Terrain

end HogwartsExplorer
